import Mathlib

/-!
Shallow embedding of `graph_tools.py` (repository Code2aum/Degrees-of-Separation).

The Python module stores an undirected edge-labeled graph as
  * `self.vertices`  : a `set` of vertices,
  * `self.adj_list`  : a `dict` mapping a vertex to a `dict` of neighbours
                       (neighbour ↦ edge label),
  * `self.degrees`   : a `dict` mapping a vertex to its degree (a Python `int`).

Embedding conventions, used consistently below:
  * vertices are `Nat`; edge labels and degrees are `Int` (Python ints; labels
    are opaque values, an `Int` stands in for them);
  * a Python `dict` is an association list whose entry order is the dict's
    insertion order; updating an existing key keeps its position, inserting a
    new key appends (CPython 3.7+ dict semantics);
  * a Python `set` is a duplicate-free list in insertion order; `set.pop`
    removes the first stored element (this fixes CPython's unspecified
    iteration order to insertion order — a determinization of the source's
    tie-breaking, which the repository leaves unspecified);
  * fallible operations (`d[k]` on a missing key, list indexing out of range,
    `set.remove` of an absent element, calling a method an object does not
    have) return `Except PyErr`;
  * Python floats are modelled by exact rationals (`ℚ`); on every value
    reached in the theorems below binary64 arithmetic is exact, so the model
    coincides with CPython there.
-/

deriving instance DecidableEq for Except

namespace GraphTools

/-- Python exception kinds raised by the operations modelled here. -/
inductive PyErr where
  | keyError : PyErr
  | indexError : PyErr
  | attributeError : PyErr
  | valueError : PyErr
deriving DecidableEq

/-- A Python number: `int` or `float` (the float payload is an exact rational;
see the module comment). `int / int` produces a `float` in Python 3. -/
inductive PyNum where
  | int : Int → PyNum
  | float : ℚ → PyNum
deriving DecidableEq

/-- Python `+` on numbers: `int + int` is an `int`; any operand being a
`float` makes the result a `float`. -/
def pyAdd : PyNum → PyNum → PyNum
  | .int a, .int b => .int (a + b)
  | .int a, .float q => .float (a + q)
  | .float q, .int b => .float (q + b)
  | .float p, .float q => .float (p + q)

/-- Python 3 true division `a / b` on two ints: a `float`. -/
def pyTrueDiv (a b : Int) : PyNum := .float ((a : ℚ) / (b : ℚ))

/-- A Python `dict` with `Nat` keys: association list in insertion order. -/
abbrev Dict (β : Type) := List (Nat × β)

/-- `d[k]` as a partial read: the value at the first (unique) entry for `k`. -/
def dlookup {β : Type} : Dict β → Nat → Option β
  | [], _ => none
  | (k', v) :: rest, k => if k' = k then some v else dlookup rest k

/-- `list(d.keys())` of a dict, in insertion order. -/
def dkeys {β : Type} (d : Dict β) : List Nat := d.map Prod.fst

/-- `k in d` for a dict. -/
def dmem {β : Type} (d : Dict β) (k : Nat) : Bool := (dlookup d k).isSome

/-- `d[k] = v`: update in place if `k` is a key (keeping its position),
otherwise append the new entry (CPython insertion order). -/
def dinsert {β : Type} : Dict β → Nat → β → Dict β
  | [], k, v => [(k, v)]
  | (k', v') :: rest, k, v =>
    if k' = k then (k, v) :: rest else (k', v') :: dinsert rest k v

/-- `s.add(x)` for a Python set modelled as a duplicate-free list:
append if absent. -/
def sadd (s : List Nat) (x : Nat) : List Nat := if x ∈ s then s else s ++ [x]

/-- Python list index resolution: an index `i` with `0 ≤ i < len` is used as
is, `-len ≤ i < 0` wraps to `len + i`, anything else is out of range. -/
def pyIdx (len : Nat) (i : Int) : Option Nat :=
  if 0 ≤ i ∧ i < (len : Int) then some i.toNat
  else if -(len : Int) ≤ i ∧ i < 0 then some ((len : Int) + i).toNat
  else none

/-- `l[i]` for a Python list (with negative-index wrap). -/
def pyGet {α : Type} (l : List α) (i : Int) : Option α :=
  (pyIdx l.length i).bind fun j => l[j]?

/-- `l[i] = a` for a Python list (with negative-index wrap). -/
def pySet {α : Type} (l : List α) (i : Int) (a : α) : Option (List α) :=
  (pyIdx l.length i).map fun j => l.set j a

/-- The `graph` class of `graph_tools.py` (fields in `__init__` order:
`adj_list`, `vertices`, `degrees`). -/
structure Graph where
  adj_list : Dict (Dict Int)
  vertices : List Nat
  degrees : Dict Int
deriving DecidableEq

/-- `graph.__init__`: the empty graph. -/
def emptyGraph : Graph := { adj_list := [], vertices := [], degrees := [] }

/-- `graph.isNode` (lines 37–44): membership of `node` in `self.vertices`. -/
def isNode (g : Graph) (node : Nat) : Bool := node ∈ g.vertices

/-- `graph.isEdge` (lines 49–58).  Output 1 (edge present) or 0.  The inner
check `node2 in self.adj_list[node1]` raises `KeyError` if `node1` is a
vertex missing from `adj_list` (never happens on graphs built by
`Add_und_edge`, see the invariant theorems). -/
def isEdge (g : Graph) (node1 node2 : Nat) : Except PyErr Int :=
  let first : Except PyErr Bool :=
    if node1 ∈ g.vertices then
      match dlookup g.adj_list node1 with
      | none => .error .keyError
      | some nbrs => .ok (dmem nbrs node2)
    else .ok false
  match first with
  | .error e => .error e
  | .ok true => .ok 1
  | .ok false =>
    if node2 ∈ g.vertices then
      match dlookup g.adj_list node2 with
      | none => .error .keyError
      | some nbrs => if dmem nbrs node1 then .ok 1 else .ok 0
    else .ok 0

/-- One endpoint's half of `graph.Add_und_edge`: lines 67–77 with
`(a, b) = (node1, node2)`, and (the textually repeated block) lines 79–89
with `(a, b) = (node2, node1)`.
If `a` is a vertex: read `nbrs = self.adj_list[a]` (`KeyError` when absent);
if `b not in nbrs`, store `nbrs[b] = value` and increment `self.degrees[a]`
(`KeyError` when absent).  Otherwise add `a` to `vertices`, set its
neighbour dict to `{b: value}` and its degree to 1. -/
def addHalf (g : Graph) (a b : Nat) (value : Int) : Except PyErr Graph :=
  if a ∈ g.vertices then
    match dlookup g.adj_list a with
    | none => .error .keyError
    | some nbrs =>
      if dmem nbrs b then .ok g
      else
        match dlookup g.degrees a with
        | none => .error .keyError
        | some d =>
          .ok { g with
                adj_list := dinsert g.adj_list a (dinsert nbrs b value),
                degrees := dinsert g.degrees a (d + 1) }
  else
    .ok { g with
          vertices := g.vertices ++ [a],
          adj_list := dinsert g.adj_list a [(b, value)],
          degrees := dinsert g.degrees a 1 }

/-- `graph.Add_und_edge` (lines 64–89).  A self loop returns immediately
(line 65–66); otherwise the `node1` block runs, then the `node2` block runs
on the updated state.  The default `value` in the source is `1`. -/
def Add_und_edge (g : Graph) (node1 node2 : Nat) (value : Int) : Except PyErr Graph :=
  if node1 = node2 then .ok g
  else
    match addHalf g node1 node2 value with
    | .error e => .error e
    | .ok g1 => addHalf g1 node2 node1 value

/-- The loop of `graph.Size` (lines 141–144) over `self.vertices`:
`m = m + deg` (int arithmetic) and `wedge = wedge + deg*(deg-1)/2`, where
`/` is Python 3 float division, so `wedge` becomes a `float` as soon as one
vertex is processed. -/
def sizeLoop (degs : Dict Int) : List Nat → Int → PyNum → Except PyErr (Int × PyNum)
  | [], m, wedge => .ok (m, wedge)
  | node :: rest, m, wedge =>
    match dlookup degs node with
    | none => .error .keyError
    | some deg => sizeLoop degs rest (m + deg) (pyAdd wedge (pyTrueDiv (deg * (deg - 1)) 2))

/-- `graph.Size` (lines 136–145): returns `[n, m, wedge]`. -/
def Size (g : Graph) : Except PyErr (Int × Int × PyNum) :=
  match sizeLoop g.degrees g.vertices 0 (.int 0) with
  | .error e => .error e
  | .ok (m, wedge) => .ok ((g.vertices.length : Int), m, wedge)

/-- `np.bincount` on a list of ints: raises on negative entries; otherwise
entry `i` of the result counts the occurrences of `i`, and the length is
`max + 1` (0 for an empty input). -/
def bincount (degs : List Int) : Except PyErr (List Nat) :=
  if degs.any (fun d => d < 0) then .error .valueError
  else
    let len : Nat :=
      match degs with
      | [] => 0
      | _ => (degs.foldl max 0).toNat + 1
    .ok ((List.range len).map fun (i : Nat) => degs.count ((i : Nat) : Int))

/-- `graph.Deg_dist` (lines 167–175), with the default `fname=''` so the
file-writing branch (out of scope, I/O) is not taken:
`np.bincount(list(self.degrees.values()))`. -/
def Deg_dist (g : Graph) : Except PyErr (List Nat) :=
  bincount (g.degrees.map Prod.snd)

/-- The `DAG` class (lines 244–248), inheriting the `graph` fields and adding
`top_order`.  Its adjacency values are Python *sets* of successors (line 192
initializes them with `set()`), not label dicts.  `DAG.__init__` assigns the
list it creates to the *class* attribute `DAG.top_order` (line 248); within a
single `Degeneracy` call this is observationally a fresh per-call list, which
is what this structure's `top_order` field holds — the cross-instance
aliasing of the class attribute is modelled separately by `DAGWorld` below. -/
structure DAG where
  adj_list : Dict (List Nat)
  vertices : List Nat
  degrees : Dict Int
  top_order : List Nat
deriving DecidableEq

/-- The `while len(deg_list[min_deg]) == 0: min_deg = min_deg+1` loop of
`graph.Degeneracy` (lines 212–213), with an explicit step bound instead of
unbounded iteration.  A step only happens when `deg_list[min_deg]` resolves
(so `-len ≤ min_deg < len`) and each step increases `min_deg`, hence at most
`2*len + 1` iterations can ever occur before the loop stops with the found
index or an `IndexError`; the bound `2*len + 2` therefore never runs out and
the function equals the loop's semantics on every input. -/
def advanceMinAux (degList : List (List Nat)) : Int → Nat → Except PyErr Int
  | _, 0 => .error .indexError
  | minDeg, fuel + 1 =>
    match pyGet degList minDeg with
    | none => .error .indexError
    | some bucket =>
      if bucket.length = 0 then advanceMinAux degList (minDeg + 1) fuel
      else .ok minDeg

/-- Entry point for the lines 212–213 loop. -/
def advanceMin (degList : List (List Nat)) (minDeg : Int) : Except PyErr Int :=
  advanceMinAux degList minDeg (2 * degList.length + 2)

/-- The setup loop of `graph.Degeneracy` (lines 199–203): for each `node` of
`G.vertices`, read `deg = G.degrees[node]`, do `deg_list[deg].add(node)` and
lower `min_deg` to `deg` when smaller. -/
def degInit (degs : Dict Int) :
    List Nat → List (List Nat) → Int → Except PyErr (List (List Nat) × Int)
  | [], degList, minDeg => .ok (degList, minDeg)
  | node :: rest, degList, minDeg =>
    match dlookup degs node with
    | none => .error .keyError
    | some deg =>
      match pyGet degList deg with
      | none => .error .indexError
      | some bucket =>
        match pySet degList deg (sadd bucket node) with
        | none => .error .indexError
        | some degList1 =>
          degInit degs rest degList1 (if deg < minDeg then deg else minDeg)

/-- The inner loop of `graph.Degeneracy` (lines 221–236), over the snapshot
of `G.adj_list[source]`'s keys.  Statements in source order:
`deg = G.degrees[node]`; `deg_list[deg].remove(node)` (`IndexError` on a bad
index, `KeyError` when `node` is not in that set); `deg_list[deg-1].add(node)`;
the `min_deg` update; then `G.adj_list[node].remove(source)` — `G.adj_list[node]`
is a `dict` (built by `Add_und_edge`) and Python dicts have no `remove`
method, so this statement raises `AttributeError` whenever it is reached.
The remaining statements of the body (`G.degrees[node] -= 1`,
`core_G.adj_list[source].add(node)`, `core_G.degrees[source] += 1`) are
unreachable in every execution, which is also why `G` is never written and
can be threaded as a constant here. -/
def degInner (G : Graph) (_source : Nat) :
    List Nat → List (List Nat) → Int → DAG → Except PyErr (List (List Nat) × Int × DAG)
  | [], degList, minDeg, coreG => .ok (degList, minDeg, coreG)
  | node :: _rest, degList, minDeg, _coreG =>
    match dlookup G.degrees node with
    | none => .error .keyError
    | some deg =>
      match pyGet degList deg with
      | none => .error .indexError
      | some bucket =>
        if node ∈ bucket then
          match pySet degList deg (bucket.erase node) with
          | none => .error .indexError
          | some degList1 =>
            match pyGet degList1 (deg - 1) with
            | none => .error .indexError
            | some bucket1 =>
              match pySet degList1 (deg - 1) (sadd bucket1 node) with
              | none => .error .indexError
              | some _degList2 =>
                let _minDeg1 := if deg - 1 < minDeg then deg - 1 else minDeg
                match dlookup G.adj_list node with
                | none => .error .keyError
                | some _nbrsOfNode =>
                  -- `G.adj_list[node].remove(source)`: AttributeError (see above).
                  .error .attributeError
        else .error .keyError

/-- The main loop of `graph.Degeneracy` (lines 207–236), `n` iterations.
Each iteration: advance `min_deg` (lines 212–213); `source =
deg_list[min_deg].pop()` (`set.pop` raises `KeyError` on an empty set, and
pops the first stored element in this model); append `source` to
`core_G.top_order`; run the inner loop over the keys of
`G.adj_list[source]` (`KeyError` if `source` has no `adj_list` entry). -/
def degMain (G : Graph) :
    Nat → List (List Nat) → Int → DAG → Except PyErr DAG
  | 0, _, _, coreG => .ok coreG
  | k + 1, degList, minDeg, coreG =>
    match advanceMin degList minDeg with
    | .error e => .error e
    | .ok minDeg1 =>
      match pyGet degList minDeg1 with
      | none => .error .indexError
      | some bucket =>
        match bucket with
        | [] => .error .keyError
        | source :: bucketRest =>
          match pySet degList minDeg1 bucketRest with
          | none => .error .indexError
          | some degList1 =>
            let coreG1 := { coreG with top_order := coreG.top_order ++ [source] }
            match dlookup G.adj_list source with
            | none => .error .keyError
            | some nbrsDict =>
              match degInner G source (dkeys nbrsDict) degList1 minDeg1 coreG1 with
              | .error e => .error e
              | .ok (degList2, minDeg2, coreG2) => degMain G k degList2 minDeg2 coreG2

/-- `graph.Degeneracy` (lines 185–238), run against an explicit object store
so that the aliasing structure is visible: `s` is the list of live `graph`
objects and `r` the reference the method is invoked on (`self`).
`G = copy.deepcopy(self)` (line 186) allocates an independent copy as a new
object (appended to the store); every subsequent read of `G` is from that
copy, and — as noted at `degInner` — the run contains no reachable write to
any graph object, so the store is returned with the original objects intact
alongside the computation's result (the raised exception, when one occurs,
propagates to the caller with the store in that state). -/
def Degeneracy (s : List Graph) (r : Nat) : List Graph × Except PyErr DAG :=
  match s[r]? with
  | none => (s, .error .keyError)
  | some self =>
    let G := self
    let s1 := s ++ [G]
    let n := G.vertices.length
    let _top_order := List.replicate (n + 1) (0 : Nat)
    let coreG0 : DAG := { adj_list := [], vertices := G.vertices, degrees := [], top_order := [] }
    let coreG1 := G.vertices.foldl
      (fun c node =>
        { c with adj_list := dinsert c.adj_list node [], degrees := dinsert c.degrees node 0 })
      coreG0
    let degList0 := List.replicate n ([] : List Nat)
    match degInit G.degrees G.vertices degList0 (n : Int) with
    | .error e => (s1, .error e)
    | .ok (degList, minDeg) => (s1, degMain G n degList minDeg coreG1)

/-- A sequence of `Add_und_edge` calls starting from a given graph; this is
the reachability harness the claims quantify over ("any sequence of
`Add_und_edge` calls starting from an empty graph"). -/
def applyEdgesFrom (g : Graph) : List (Nat × Nat × Int) → Except PyErr Graph
  | [] => .ok g
  | (a, b, value) :: rest =>
    match Add_und_edge g a b value with
    | .error e => .error e
    | .ok g1 => applyEdgesFrom g1 rest

/-- A sequence of `Add_und_edge` calls starting from the empty graph. -/
def applyEdges (ops : List (Nat × Nat × Int)) : Except PyErr Graph :=
  applyEdgesFrom emptyGraph ops

/-! ### The class-attribute semantics of `DAG.top_order`

`DAG.__init__` (line 248) executes `DAG.top_order = []`: it binds a fresh
list to the *class* attribute, not to the instance.  No code ever assigns
`self.top_order`, so attribute lookup on any instance falls through its
(empty) instance dictionary to the single class attribute, and
`obj.top_order.append(x)` mutates that shared list in place.  The following
small model captures exactly this: a world holds the class attribute and,
per instance, the (never populated) instance-dictionary slot. -/

/-- The mutable world of `DAG` objects: the class attribute `DAG.top_order`
plus, for each constructed instance, its own `top_order` slot — `none`
because the source never assigns `self.top_order`. -/
structure DAGWorld where
  classTopOrder : List Nat
  instTopOrder : List (Option (List Nat))
deriving DecidableEq

/-- `DAG()`: allocates an instance (whose dictionary has no `top_order`) and
performs `DAG.top_order = []`, resetting the class attribute.  Returns the
new instance's reference. -/
def mkDAG (w : DAGWorld) : DAGWorld × Nat :=
  ({ classTopOrder := [], instTopOrder := w.instTopOrder ++ [none] },
   w.instTopOrder.length)

/-- Reading `obj.top_order`: the instance slot if it were ever set, else the
class attribute. -/
def readTopOrder (w : DAGWorld) (i : Nat) : List Nat :=
  match w.instTopOrder[i]? with
  | some (some l) => l
  | _ => w.classTopOrder

/-- `obj.top_order.append(x)`: looks `top_order` up (as in `readTopOrder`)
and mutates the list object found there in place. -/
def appendTopOrder (w : DAGWorld) (i : Nat) (x : Nat) : DAGWorld :=
  match w.instTopOrder[i]? with
  | some (some l) => { w with instTopOrder := w.instTopOrder.set i (some (l ++ [x])) }
  | _ => { w with classTopOrder := w.classTopOrder ++ [x] }

/-! ### Concrete graphs used in the theorems below -/

/-- The graph built by `Add_und_edge(0, 1)` on a fresh graph (default label). -/
def g01 : Graph :=
  { adj_list := [(0, [(1, 1)]), (1, [(0, 1)])],
    vertices := [0, 1],
    degrees := [(0, 1), (1, 1)] }

/-- The path 0–1–2: `Add_und_edge(0,1)` then `Add_und_edge(1,2)`. -/
def gPath : Graph :=
  { adj_list := [(0, [(1, 1)]), (1, [(0, 1), (2, 1)]), (2, [(1, 1)])],
    vertices := [0, 1, 2],
    degrees := [(0, 1), (1, 2), (2, 1)] }

/-- The single edge 3–7 with label 5. -/
def g37 : Graph :=
  { adj_list := [(3, [(7, 5)]), (7, [(3, 5)])],
    vertices := [3, 7],
    degrees := [(3, 1), (7, 1)] }

/-- The single edge 0–1 with label 5. -/
def g01v5 : Graph :=
  { adj_list := [(0, [(1, 5)]), (1, [(0, 5)])],
    vertices := [0, 1],
    degrees := [(0, 1), (1, 1)] }

/-- The triangle on {1, 2, 3}: edges (1,2), (1,3), (2,3), default labels. -/
def gTri : Graph :=
  { adj_list := [(1, [(2, 1), (3, 1)]), (2, [(1, 1), (3, 1)]), (3, [(1, 1), (2, 1)])],
    vertices := [1, 2, 3],
    degrees := [(1, 2), (2, 2), (3, 2)] }

/-! ### Derived views and the reachability invariant -/

/-- The label stored for the ordered pair `(u, v)` in `u`'s adjacency dict,
when present: `self.adj_list[u][v]`. -/
def edgeLabel (g : Graph) (u v : Nat) : Option Int :=
  match dlookup g.adj_list u with
  | none => none
  | some nbrs => dlookup nbrs v

/-- The neighbour dict of `v` (empty when `v` has no adjacency entry). -/
def nbrsOf (g : Graph) (v : Nat) : Dict Int :=
  (dlookup g.adj_list v).getD []

/-- The number of neighbours of `v`: `len(self.adj_list[v])` (0 when `v` has
no adjacency entry).  This is the spec's meaning of "degree". -/
def vertexDegree (g : Graph) (v : Nat) : Nat :=
  (nbrsOf g v).length

/-- The largest vertex degree of the graph (0 on the empty graph). -/
def maxDegree (g : Graph) : Nat :=
  g.vertices.foldl (fun m v => max m (vertexDegree g v)) 0

/-- The structural invariant of every graph reachable from `graph.__init__`
by `Add_und_edge` calls: the three fields key the same vertices (in the same
insertion order), stored degrees agree with neighbourhood sizes, adjacency
is symmetric with a single shared label per edge, there are no self loops,
and every vertex has at least one neighbour (vertices only ever appear as
endpoints of an inserted edge). -/
structure Inv (g : Graph) : Prop where
  adjKeys : dkeys g.adj_list = g.vertices
  degKeys : dkeys g.degrees = g.vertices
  vertNodup : g.vertices.Nodup
  degConsistent : ∀ v nbrs, dlookup g.adj_list v = some nbrs →
    dlookup g.degrees v = some (nbrs.length : Int)
  nbrKeysNodup : ∀ v nbrs, dlookup g.adj_list v = some nbrs → (dkeys nbrs).Nodup
  nbrMem : ∀ v nbrs u, dlookup g.adj_list v = some nbrs → u ∈ dkeys nbrs → u ∈ g.vertices
  noSelf : ∀ v nbrs, dlookup g.adj_list v = some nbrs → v ∉ dkeys nbrs
  symmLabel : ∀ u v lab, edgeLabel g u v = some lab → edgeLabel g v u = some lab
  nbrNonempty : ∀ v nbrs, dlookup g.adj_list v = some nbrs → nbrs ≠ []

/-! ### Concrete `DAGWorld` states for the class-attribute scenario -/

/-- `d1 = DAG()` in a fresh process. -/
def dagW1 : DAGWorld × Nat := mkDAG { classTopOrder := [], instTopOrder := [] }

/-- ... then `d1.top_order.append(7)`. -/
def dagW2 : DAGWorld := appendTopOrder dagW1.1 dagW1.2 7

/-- ... then `d2 = DAG()`. -/
def dagW3 : DAGWorld × Nat := mkDAG dagW2

/-! ### Association-list (Python dict) lemmas -/

@[simp] theorem dkeys_nil {β : Type} : dkeys ([] : Dict β) = [] := rfl

@[simp] theorem dkeys_cons {β : Type} (k : Nat) (v : β) (d : Dict β) :
    dkeys ((k, v) :: d) = k :: dkeys d := rfl

@[simp] theorem dlookup_nil {β : Type} (k : Nat) : dlookup ([] : Dict β) k = none := rfl

theorem dlookup_cons {β : Type} (k' : Nat) (v' : β) (d : Dict β) (k : Nat) :
    dlookup ((k', v') :: d) k = if k' = k then some v' else dlookup d k := rfl

theorem dlookup_dinsert_self {β : Type} (d : Dict β) (k : Nat) (v : β) :
    dlookup (dinsert d k v) k = some v := by
  induction d with
  | nil => simp [dinsert, dlookup]
  | cons e rest ih =>
    obtain ⟨k', v'⟩ := e
    by_cases h : k' = k <;> simp [dinsert, dlookup, h, ih]

theorem dlookup_dinsert_ne {β : Type} (d : Dict β) {k k' : Nat} (v : β) (h : k' ≠ k) :
    dlookup (dinsert d k v) k' = dlookup d k' := by
  have hk : ¬(k = k') := fun hh => h hh.symm
  induction d with
  | nil => simp [dinsert, dlookup, hk]
  | cons e rest ih =>
    obtain ⟨k'', v''⟩ := e
    simp only [dinsert]
    by_cases h2 : k'' = k
    · subst h2
      simp [dlookup_cons, hk]
    · simp only [if_neg h2, dlookup_cons, ih]

theorem dlookup_eq_none_iff {β : Type} (d : Dict β) (k : Nat) :
    dlookup d k = none ↔ k ∉ dkeys d := by
  induction d with
  | nil => simp
  | cons e rest ih =>
    obtain ⟨k', v'⟩ := e
    by_cases h : k' = k
    · subst h; simp [dlookup_cons]
    · simp only [dlookup_cons, if_neg h, ih, dkeys_cons, List.mem_cons, not_or]
      constructor
      · exact fun hnot => ⟨fun hh => h hh.symm, hnot⟩
      · exact fun hpair => hpair.2

theorem dlookup_isSome_iff {β : Type} (d : Dict β) (k : Nat) :
    (dlookup d k).isSome ↔ k ∈ dkeys d := by
  rcases hl : dlookup d k with _ | v
  · simpa using (dlookup_eq_none_iff d k).mp hl
  · have : ¬dlookup d k = none := by simp [hl]
    rw [dlookup_eq_none_iff] at this
    simpa using not_not.mp this

theorem dinsert_of_not_mem {β : Type} {d : Dict β} {k : Nat} (v : β) (h : k ∉ dkeys d) :
    dinsert d k v = d ++ [(k, v)] := by
  induction d with
  | nil => simp [dinsert]
  | cons e rest ih =>
    obtain ⟨k', v'⟩ := e
    simp only [dkeys_cons, List.mem_cons] at h
    push_neg at h
    have hne : ¬k' = k := fun hh => h.1 hh.symm
    simp [dinsert, hne, ih h.2]

theorem dkeys_dinsert_mem {β : Type} {d : Dict β} {k : Nat} (v : β) (h : k ∈ dkeys d) :
    dkeys (dinsert d k v) = dkeys d := by
  induction d with
  | nil => simp at h
  | cons e rest ih =>
    obtain ⟨k', v'⟩ := e
    by_cases h2 : k' = k
    · subst h2; simp [dinsert]
    · simp only [dkeys_cons, List.mem_cons] at h
      rcases h with h | h

      · exact absurd h.symm h2
      · simp [dinsert, h2, ih h]

theorem dlookup_append {β : Type} (d1 d2 : Dict β) (k : Nat) :
    dlookup (d1 ++ d2) k =
      match dlookup d1 k with
      | some v => some v
      | none => dlookup d2 k := by
  induction d1 with
  | nil => simp
  | cons e rest ih =>
    obtain ⟨k', v'⟩ := e
    by_cases h : k' = k <;> simp [dlookup_cons, h, ih]

theorem dkeys_append {β : Type} (d1 d2 : Dict β) :
    dkeys (d1 ++ d2) = dkeys d1 ++ dkeys d2 := by
  simp [dkeys]

theorem dlookup_mem_of_mem_dkeys {β : Type} {d : Dict β} {k : Nat} (h : k ∈ dkeys d) :
    ∃ v, dlookup d k = some v := by
  have := (dlookup_isSome_iff d k).mpr h
  exact Option.isSome_iff_exists.mp this

/-! ### Views of a graph satisfying the invariant -/

theorem edgeLabel_eq_nbrsOf (g : Graph) (a b : Nat) :
    edgeLabel g a b = dlookup (nbrsOf g a) b := by
  unfold edgeLabel nbrsOf
  rcases dlookup g.adj_list a with _ | A <;> simp

theorem adjLookup_of_mem {g : Graph} (hg : Inv g) {a : Nat} (ha : a ∈ g.vertices) :
    dlookup g.adj_list a = some (nbrsOf g a) := by
  obtain ⟨A, hA⟩ := dlookup_mem_of_mem_dkeys (d := g.adj_list) (hg.adjKeys ▸ ha)
  simp [nbrsOf, hA]

theorem adjLookup_of_not_mem {g : Graph} (hg : Inv g) {a : Nat} (ha : a ∉ g.vertices) :
    dlookup g.adj_list a = none :=
  (dlookup_eq_none_iff _ _).mpr (hg.adjKeys ▸ ha)

theorem nbrsOf_of_not_mem {g : Graph} (hg : Inv g) {a : Nat} (ha : a ∉ g.vertices) :
    nbrsOf g a = [] := by
  simp [nbrsOf, adjLookup_of_not_mem hg ha]

theorem degLookup_of_mem {g : Graph} (hg : Inv g) {a : Nat} (ha : a ∈ g.vertices) :
    dlookup g.degrees a = some (((nbrsOf g a).length : Nat) : Int) :=
  hg.degConsistent a (nbrsOf g a) (adjLookup_of_mem hg ha)

theorem degLookup_of_not_mem {g : Graph} (hg : Inv g) {a : Nat} (ha : a ∉ g.vertices) :
    dlookup g.degrees a = none :=
  (dlookup_eq_none_iff _ _).mpr (hg.degKeys ▸ ha)

/-! ### The effect of `Add_und_edge` on a graph satisfying the invariant -/

theorem addHalf_not_mem {g : Graph} {a b : Nat} {w : Int} (ha : a ∉ g.vertices) :
    addHalf g a b w = .ok
      { adj_list := dinsert g.adj_list a [(b, w)],
        vertices := g.vertices ++ [a],
        degrees := dinsert g.degrees a 1 } := by
  simp [addHalf, ha]

theorem addHalf_mem_new {g : Graph} {a b : Nat} {w : Int} {nbrs : Dict Int} {d : Int}
    (ha : a ∈ g.vertices) (hn : dlookup g.adj_list a = some nbrs)
    (hb : dlookup nbrs b = none) (hd : dlookup g.degrees a = some d) :
    addHalf g a b w = .ok
      { adj_list := dinsert g.adj_list a (dinsert nbrs b w),
        vertices := g.vertices,
        degrees := dinsert g.degrees a (d + 1) } := by
  simp [addHalf, ha, hn, dmem, hb, hd]

theorem addHalf_mem_old {g : Graph} {a b : Nat} {w : Int} {nbrs : Dict Int} {lab : Int}
    (ha : a ∈ g.vertices) (hn : dlookup g.adj_list a = some nbrs)
    (hb : dlookup nbrs b = some lab) :
    addHalf g a b w = .ok g := by
  simp [addHalf, ha, hn, dmem, hb]

/-- Unified description of one `Add_und_edge` half when the edge is not yet
present on this side, assuming the three stores agree about whether `a` is
known (which the invariant guarantees, both for the original graph and for
the intermediate state after the first half). -/
theorem addHalf_spec {g : Graph} {a : Nat} (b : Nat) (value : Int)
    (hadj : dlookup g.adj_list a = if a ∈ g.vertices then some (nbrsOf g a) else none)
    (hdeg : dlookup g.degrees a =
      if a ∈ g.vertices then some (((nbrsOf g a).length : Nat) : Int) else none)
    (hnotnbr : b ∉ dkeys (nbrsOf g a)) :
    addHalf g a b value = .ok
      { adj_list := dinsert g.adj_list a (nbrsOf g a ++ [(b, value)]),
        vertices := if a ∈ g.vertices then g.vertices else g.vertices ++ [a],
        degrees := dinsert g.degrees a (((nbrsOf g a).length : Nat) + 1 : Int) } := by
  by_cases ha : a ∈ g.vertices
  · rw [if_pos ha] at hadj hdeg
    have h1 := addHalf_mem_new (w := value) ha hadj
      ((dlookup_eq_none_iff _ _).mpr hnotnbr) hdeg
    rw [dinsert_of_not_mem value hnotnbr] at h1
    rw [h1, if_pos ha]
  · rw [if_neg ha] at hadj
    have hemp : nbrsOf g a = [] := by simp [nbrsOf, hadj]
    have h1 := addHalf_not_mem (b := b) (w := value) ha
    rw [h1, if_neg ha, hemp]
    norm_num

/-- Full description of `Add_und_edge` on an invariant-satisfying graph when
the (undirected) edge is not yet present: both halves fire, the endpoints
are appended to `vertices` when new, the key lists follow, the two
neighbour dicts get the new entry appended with the given label, both
degrees grow by one, and everything else is untouched. -/
theorem add_edge_effect (g : Graph) (a b : Nat) (value : Int) (hg : Inv g)
    (hab : a ≠ b) (hnew : edgeLabel g a b = none) :
    ∃ g', Add_und_edge g a b value = .ok g' ∧
      g'.vertices = (if a ∈ g.vertices then g.vertices else g.vertices ++ [a]) ++
        (if b ∈ g.vertices then [] else [b]) ∧
      dkeys g'.adj_list = g'.vertices ∧
      dkeys g'.degrees = g'.vertices ∧
      dlookup g'.adj_list a = some (nbrsOf g a ++ [(b, value)]) ∧
      dlookup g'.adj_list b = some (nbrsOf g b ++ [(a, value)]) ∧
      dlookup g'.degrees a = some (((nbrsOf g a).length : Nat) + 1 : Int) ∧
      dlookup g'.degrees b = some (((nbrsOf g b).length : Nat) + 1 : Int) ∧
      (∀ x, x ≠ a → x ≠ b → dlookup g'.adj_list x = dlookup g.adj_list x) ∧
      (∀ x, x ≠ a → x ≠ b → dlookup g'.degrees x = dlookup g.degrees x) := by
  have hba : edgeLabel g b a = none := by
    rcases hE : edgeLabel g b a with _ | lab
    · rfl
    · have hsym := hg.symmLabel b a lab hE
      rw [hnew] at hsym
      cases hsym
  have hbnotA : b ∉ dkeys (nbrsOf g a) := by
    rw [← dlookup_eq_none_iff, ← edgeLabel_eq_nbrsOf]
    exact hnew
  have hanotB : a ∉ dkeys (nbrsOf g b) := by
    rw [← dlookup_eq_none_iff, ← edgeLabel_eq_nbrsOf]
    exact hba
  have hadjA : dlookup g.adj_list a =
      if a ∈ g.vertices then some (nbrsOf g a) else none := by
    by_cases ha : a ∈ g.vertices
    · rw [if_pos ha]; exact adjLookup_of_mem hg ha
    · rw [if_neg ha]; exact adjLookup_of_not_mem hg ha
  have hdegA : dlookup g.degrees a =
      if a ∈ g.vertices then some (((nbrsOf g a).length : Nat) : Int) else none := by
    by_cases ha : a ∈ g.vertices
    · rw [if_pos ha]; exact degLookup_of_mem hg ha
    · rw [if_neg ha]; exact degLookup_of_not_mem hg ha
  have h1 := addHalf_spec (g := g) (a := a) b value hadjA hdegA hbnotA
  set g1 : Graph :=
    { adj_list := dinsert g.adj_list a (nbrsOf g a ++ [(b, value)]),
      vertices := if a ∈ g.vertices then g.vertices else g.vertices ++ [a],
      degrees := dinsert g.degrees a (((nbrsOf g a).length : Nat) + 1 : Int) } with hg1def
  -- facts about the intermediate state g1, as seen from b
  have hmem1 : ∀ x, x ≠ a → (x ∈ g1.vertices ↔ x ∈ g.vertices) := by
    intro x hx
    rw [hg1def]
    by_cases ha : a ∈ g.vertices <;> simp [ha, hx]
  have hadj1 : ∀ x, x ≠ a → dlookup g1.adj_list x = dlookup g.adj_list x := by
    intro x hx
    rw [hg1def]
    exact dlookup_dinsert_ne _ _ hx
  have hdeg1 : ∀ x, x ≠ a → dlookup g1.degrees x = dlookup g.degrees x := by
    intro x hx
    rw [hg1def]
    exact dlookup_dinsert_ne _ _ hx
  have hnbrs1 : nbrsOf g1 b = nbrsOf g b := by
    unfold nbrsOf
    rw [hadj1 b (Ne.symm hab)]
  have hadjB : dlookup g1.adj_list b =
      if b ∈ g1.vertices then some (nbrsOf g1 b) else none := by
    rw [hadj1 b (Ne.symm hab), hnbrs1]
    by_cases hb : b ∈ g.vertices
    · rw [if_pos ((hmem1 b (Ne.symm hab)).mpr hb)]; exact adjLookup_of_mem hg hb
    · rw [if_neg (fun hc => hb ((hmem1 b (Ne.symm hab)).mp hc))]
      exact adjLookup_of_not_mem hg hb
  have hdegB : dlookup g1.degrees b =
      if b ∈ g1.vertices then some (((nbrsOf g1 b).length : Nat) : Int) else none := by
    rw [hdeg1 b (Ne.symm hab), hnbrs1]
    by_cases hb : b ∈ g.vertices
    · rw [if_pos ((hmem1 b (Ne.symm hab)).mpr hb)]; exact degLookup_of_mem hg hb
    · rw [if_neg (fun hc => hb ((hmem1 b (Ne.symm hab)).mp hc))]
      exact degLookup_of_not_mem hg hb
  have hanotB1 : a ∉ dkeys (nbrsOf g1 b) := by rw [hnbrs1]; exact hanotB
  have h2 := addHalf_spec (g := g1) (a := b) a value hadjB hdegB hanotB1
  rw [hnbrs1] at h2
  have hkeys1adj : dkeys g1.adj_list = g1.vertices := by
    rw [hg1def]
    by_cases ha : a ∈ g.vertices
    · rw [dkeys_dinsert_mem _ (hg.adjKeys ▸ ha), hg.adjKeys, if_pos ha]
    · rw [dinsert_of_not_mem _ (fun hc => ha (hg.adjKeys ▸ hc)), dkeys_append,
        hg.adjKeys, if_neg ha]
      rfl
  have hkeys1deg : dkeys g1.degrees = g1.vertices := by
    rw [hg1def]
    by_cases ha : a ∈ g.vertices
    · rw [dkeys_dinsert_mem _ (hg.degKeys ▸ ha), hg.degKeys]
      show _ = if a ∈ g.vertices then g.vertices else g.vertices ++ [a]
      rw [if_pos ha]
    · rw [dinsert_of_not_mem _ (fun hc => ha (hg.degKeys ▸ hc)), dkeys_append, hg.degKeys]
      show _ = if a ∈ g.vertices then g.vertices else g.vertices ++ [a]
      rw [if_neg ha]
      rfl
  refine ⟨{ adj_list := dinsert g1.adj_list b (nbrsOf g b ++ [(a, value)]),
            vertices := if b ∈ g1.vertices then g1.vertices else g1.vertices ++ [b],
            degrees := dinsert g1.degrees b (((nbrsOf g b).length : Nat) + 1 : Int) },
          ?_, ?_, ?_, ?_, ?_, ?_, ?_, ?_, ?_, ?_⟩
  · simp only [Add_und_edge, if_neg hab, h1]
    exact h2
  · show (if b ∈ g1.vertices then g1.vertices else g1.vertices ++ [b]) = _
    by_cases hb : b ∈ g.vertices
    · rw [if_pos ((hmem1 b (Ne.symm hab)).mpr hb), if_pos hb, List.append_nil]
    · rw [if_neg (fun hc => hb ((hmem1 b (Ne.symm hab)).mp hc)), if_neg hb]
  · show dkeys (dinsert g1.adj_list b (nbrsOf g b ++ [(a, value)])) = _
    by_cases hbv : b ∈ g1.vertices
    · rw [dkeys_dinsert_mem _ (hkeys1adj ▸ hbv), hkeys1adj, if_pos hbv]
    · rw [dinsert_of_not_mem _ (fun hc => hbv (hkeys1adj ▸ hc)), dkeys_append,
        hkeys1adj, if_neg hbv]
      rfl
  · show dkeys (dinsert g1.degrees b (((nbrsOf g b).length : Nat) + 1 : Int)) = _
    by_cases hbv : b ∈ g1.vertices
    · rw [dkeys_dinsert_mem _ (hkeys1deg ▸ hbv), hkeys1deg, if_pos hbv]
    · rw [dinsert_of_not_mem _ (fun hc => hbv (hkeys1deg ▸ hc)), dkeys_append,
        hkeys1deg, if_neg hbv]
      rfl
  · show dlookup (dinsert g1.adj_list b (nbrsOf g b ++ [(a, value)])) a = _
    rw [dlookup_dinsert_ne _ _ hab, hg1def]
    exact dlookup_dinsert_self _ _ _
  · exact dlookup_dinsert_self _ _ _
  · show dlookup (dinsert g1.degrees b (((nbrsOf g b).length : Nat) + 1 : Int)) a = _
    rw [dlookup_dinsert_ne _ _ hab, hg1def]
    exact dlookup_dinsert_self _ _ _
  · exact dlookup_dinsert_self _ _ _
  · intro x hxa hxb
    show dlookup (dinsert g1.adj_list b (nbrsOf g b ++ [(a, value)])) x = _
    rw [dlookup_dinsert_ne _ _ hxb]
    exact hadj1 x hxa
  · intro x hxa hxb
    show dlookup (dinsert g1.degrees b (((nbrsOf g b).length : Nat) + 1 : Int)) x = _
    rw [dlookup_dinsert_ne _ _ hxb]
    exact hdeg1 x hxa

theorem nbrsOf_keys_nodup {g : Graph} (hg : Inv g) (v : Nat) :
    (dkeys (nbrsOf g v)).Nodup := by
  by_cases hv : v ∈ g.vertices
  · exact hg.nbrKeysNodup v _ (adjLookup_of_mem hg hv)
  · rw [nbrsOf_of_not_mem hg hv]
    simp

theorem nbrsOf_keys_sub {g : Graph} (hg : Inv g) {v u : Nat}
    (hu : u ∈ dkeys (nbrsOf g v)) : u ∈ g.vertices := by
  by_cases hv : v ∈ g.vertices
  · exact hg.nbrMem v _ u (adjLookup_of_mem hg hv) hu
  · rw [nbrsOf_of_not_mem hg hv] at hu
    simp at hu

theorem nbrsOf_not_self {g : Graph} (hg : Inv g) (v : Nat) :
    v ∉ dkeys (nbrsOf g v) := by
  by_cases hv : v ∈ g.vertices
  · exact hg.noSelf v _ (adjLookup_of_mem hg hv)
  · rw [nbrsOf_of_not_mem hg hv]
    simp

/-- Rebuilding the invariant for the graph produced by `Add_und_edge` on a
not-yet-present edge, from the description given by `add_edge_effect`. -/
theorem inv_of_add (g g' : Graph) (a b : Nat) (value : Int) (hg : Inv g)
    (hab : a ≠ b) (hnew : edgeLabel g a b = none)
    (hverts : g'.vertices = (if a ∈ g.vertices then g.vertices else g.vertices ++ [a]) ++
        (if b ∈ g.vertices then [] else [b]))
    (hkadj : dkeys g'.adj_list = g'.vertices)
    (hkdeg : dkeys g'.degrees = g'.vertices)
    (hla : dlookup g'.adj_list a = some (nbrsOf g a ++ [(b, value)]))
    (hlb : dlookup g'.adj_list b = some (nbrsOf g b ++ [(a, value)]))
    (hda : dlookup g'.degrees a = some (((nbrsOf g a).length : Nat) + 1 : Int))
    (hdb : dlookup g'.degrees b = some (((nbrsOf g b).length : Nat) + 1 : Int))
    (hfadj : ∀ x, x ≠ a → x ≠ b → dlookup g'.adj_list x = dlookup g.adj_list x)
    (hfdeg : ∀ x, x ≠ a → x ≠ b → dlookup g'.degrees x = dlookup g.degrees x) :
    Inv g' := by
  have hba : edgeLabel g b a = none := by
    rcases hE : edgeLabel g b a with _ | lab
    · rfl
    · have hsym := hg.symmLabel b a lab hE
      rw [hnew] at hsym
      cases hsym
  have hbnotA : b ∉ dkeys (nbrsOf g a) := by
    rw [← dlookup_eq_none_iff, ← edgeLabel_eq_nbrsOf]
    exact hnew
  have hanotB : a ∉ dkeys (nbrsOf g b) := by
    rw [← dlookup_eq_none_iff, ← edgeLabel_eq_nbrsOf]
    exact hba
  have hsubV : ∀ x, x ∈ g.vertices → x ∈ g'.vertices := by
    intro x hx
    rw [hverts]
    apply List.mem_append_left
    by_cases ha : a ∈ g.vertices <;> simp [ha, hx]
  have haV : a ∈ g'.vertices := by
    rw [hverts]
    apply List.mem_append_left
    by_cases ha : a ∈ g.vertices <;> simp [ha]
  have hbV : b ∈ g'.vertices := by
    by_cases hb : b ∈ g.vertices
    · exact hsubV b hb
    · rw [hverts]
      apply List.mem_append_right
      simp [hb]
  have hNa : nbrsOf g' a = nbrsOf g a ++ [(b, value)] := by simp [nbrsOf, hla]
  have hNb : nbrsOf g' b = nbrsOf g b ++ [(a, value)] := by simp [nbrsOf, hlb]
  have hNo : ∀ x, x ≠ a → x ≠ b → nbrsOf g' x = nbrsOf g x := by
    intro x h1 h2
    simp [nbrsOf, hfadj x h1 h2]
  have hnbrs_eq : ∀ v nbrs, dlookup g'.adj_list v = some nbrs → nbrs = nbrsOf g' v := by
    intro v nbrs hlook
    simp [nbrsOf, hlook]
  refine ⟨hkadj, hkdeg, ?_, ?_, ?_, ?_, ?_, ?_, ?_⟩
  · -- vertNodup
    rw [hverts]
    by_cases ha : a ∈ g.vertices <;> by_cases hb : b ∈ g.vertices <;>
      simp [ha, hb, List.nodup_append, hg.vertNodup, hab, Ne.symm hab]
  · -- degConsistent
    intro v nbrs hlook
    have hnn := hnbrs_eq v nbrs hlook
    by_cases hva : v = a
    · subst hva
      rw [hla] at hlook
      have : nbrs = nbrsOf g v ++ [(b, value)] := by injection hlook with h; exact h.symm
      subst this
      rw [hda]
      congr 1
      rw [List.length_append, List.length_singleton]
      push_cast
      ring
    · by_cases hvb : v = b
      · subst hvb
        rw [hlb] at hlook
        have : nbrs = nbrsOf g v ++ [(a, value)] := by injection hlook with h; exact h.symm
        subst this
        rw [hdb]
        congr 1
        rw [List.length_append, List.length_singleton]
        push_cast
        ring
      · rw [hfadj v hva hvb] at hlook
        rw [hfdeg v hva hvb]
        exact hg.degConsistent v nbrs hlook
  · -- nbrKeysNodup
    intro v nbrs hlook
    have hnn := hnbrs_eq v nbrs hlook
    subst hnn
    by_cases hva : v = a
    · subst hva
      rw [hNa, dkeys_append]
      refine List.Nodup.append (nbrsOf_keys_nodup hg v) (by simp) ?_
      intro x hx hx'
      rw [show dkeys [(b, value)] = [b] from rfl, List.mem_singleton] at hx'
      subst hx'
      exact hbnotA hx
    · by_cases hvb : v = b
      · subst hvb
        rw [hNb, dkeys_append]
        refine List.Nodup.append (nbrsOf_keys_nodup hg v) (by simp) ?_
        intro x hx hx'
        rw [show dkeys [(a, value)] = [a] from rfl, List.mem_singleton] at hx'
        subst hx'
        exact hanotB hx
      · rw [hNo v hva hvb]
        exact nbrsOf_keys_nodup hg v
  · -- nbrMem
    intro v nbrs u hlook hu
    have hnn := hnbrs_eq v nbrs hlook
    subst hnn
    by_cases hva : v = a
    · subst hva
      rw [hNa, dkeys_append] at hu
      rcases List.mem_append.mp hu with h | h
      · exact hsubV u (nbrsOf_keys_sub hg h)
      · simp [dkeys] at h
        subst h
        exact hbV
    · by_cases hvb : v = b
      · subst hvb
        rw [hNb, dkeys_append] at hu
        rcases List.mem_append.mp hu with h | h
        · exact hsubV u (nbrsOf_keys_sub hg h)
        · simp [dkeys] at h
          subst h
          exact haV
      · rw [hNo v hva hvb] at hu
        exact hsubV u (nbrsOf_keys_sub hg hu)
  · -- noSelf
    intro v nbrs hlook
    have hnn := hnbrs_eq v nbrs hlook
    subst hnn
    by_cases hva : v = a
    · subst hva
      rw [hNa, dkeys_append]
      intro hmem
      rcases List.mem_append.mp hmem with h | h
      · exact nbrsOf_not_self hg v h
      · simp [dkeys] at h
        exact hab h
    · by_cases hvb : v = b
      · subst hvb
        rw [hNb, dkeys_append]
        intro hmem
        rcases List.mem_append.mp hmem with h | h
        · exact nbrsOf_not_self hg v h
        · simp [dkeys] at h
          exact hab h.symm
      · rw [hNo v hva hvb]
        exact nbrsOf_not_self hg v
  · -- symmLabel
    have hE'a : ∀ x, edgeLabel g' a x = if x = b then some value else edgeLabel g a x := by
      intro x
      rw [edgeLabel_eq_nbrsOf, edgeLabel_eq_nbrsOf, hNa, dlookup_append]
      by_cases hx : x = b
      · subst hx
        rw [(dlookup_eq_none_iff _ _).mpr hbnotA]
        simp [dlookup_cons]
      · rw [if_neg hx]
        have hbx : ¬(b = x) := fun hh => hx hh.symm
        rcases h : dlookup (nbrsOf g a) x with _ | w <;> simp [dlookup_cons, hbx]
    have hE'b : ∀ x, edgeLabel g' b x = if x = a then some value else edgeLabel g b x := by
      intro x
      rw [edgeLabel_eq_nbrsOf, edgeLabel_eq_nbrsOf, hNb, dlookup_append]
      by_cases hx : x = a
      · subst hx
        rw [(dlookup_eq_none_iff _ _).mpr hanotB]
        simp [dlookup_cons]
      · rw [if_neg hx]
        have hax : ¬(a = x) := fun hh => hx hh.symm
        rcases h : dlookup (nbrsOf g b) x with _ | w <;> simp [dlookup_cons, hax]
    have hE'o : ∀ u x, u ≠ a → u ≠ b → edgeLabel g' u x = edgeLabel g u x := by
      intro u x h1 h2
      rw [edgeLabel_eq_nbrsOf, edgeLabel_eq_nbrsOf, hNo u h1 h2]
    have hmemKeys : ∀ u x lab, edgeLabel g u x = some lab → x ∈ dkeys (nbrsOf g u) := by
      intro u x lab hE
      rw [edgeLabel_eq_nbrsOf] at hE
      rw [← dlookup_isSome_iff, hE]
      rfl
    intro u v lab hE
    by_cases hua : u = a
    · subst hua
      rw [hE'a v] at hE
      by_cases hvb : v = b
      · subst hvb
        rw [if_pos rfl] at hE
        rw [hE'b u, if_pos rfl]
        exact hE
      · rw [if_neg hvb] at hE
        have hvu : v ≠ u := by
          intro hc
          subst hc
          exact nbrsOf_not_self hg v (hmemKeys v v lab hE)
        have hsym := hg.symmLabel u v lab hE
        rw [hE'o v u hvu hvb]
        exact hsym
    · by_cases hub : u = b
      · subst hub
        rw [hE'b v] at hE
        by_cases hva : v = a
        · subst hva
          rw [if_pos rfl] at hE
          rw [hE'a u, if_pos rfl]
          exact hE
        · rw [if_neg hva] at hE
          have hvu : v ≠ u := by
            intro hc
            subst hc
            exact nbrsOf_not_self hg v (hmemKeys v v lab hE)
          have hsym := hg.symmLabel u v lab hE
          rw [hE'o v u hva hvu]
          exact hsym
      · rw [hE'o u v hua hub] at hE
        have hsym := hg.symmLabel u v lab hE
        by_cases hva : v = a
        · subst hva
          rw [hE'a u, if_neg hub]
          exact hsym
        · by_cases hvb : v = b
          · subst hvb
            rw [hE'b u, if_neg hua]
            exact hsym
          · rw [hE'o v u hva hvb]
            exact hsym
  · -- nbrNonempty
    intro v nbrs hlook
    have hnn := hnbrs_eq v nbrs hlook
    subst hnn
    by_cases hva : v = a
    · subst hva
      rw [hNa]
      simp
    · by_cases hvb : v = b
      · subst hvb
        rw [hNb]
        simp
      · rw [hNo v hva hvb]
        intro hc
        have hvV : v ∈ g.vertices := by
          rw [← hg.adjKeys, ← dlookup_isSome_iff]
          have := hfadj v hva hvb
          rw [this] at hlook
          rw [hlook]
          rfl
        have := hg.nbrNonempty v (nbrsOf g v) (adjLookup_of_mem hg hvV)
        exact this hc

/-- `Add_und_edge` on an already-present edge is a no-op: both halves find
the neighbour already recorded (lines 69 and 81) and change nothing, so the
originally stored label and both degrees survive. -/
theorem add_noop (g : Graph) (a b : Nat) (lab value : Int) (hg : Inv g)
    (h : edgeLabel g a b = some lab) :
    Add_und_edge g a b value = .ok g := by
  have hbk : b ∈ dkeys (nbrsOf g a) := by
    rw [← dlookup_isSome_iff, ← edgeLabel_eq_nbrsOf, h]
    rfl
  have haV : a ∈ g.vertices := by
    by_contra ha
    rw [nbrsOf_of_not_mem hg ha] at hbk
    simp at hbk
  have hab : a ≠ b := by
    intro hc
    subst hc
    exact nbrsOf_not_self hg a hbk
  have hsym := hg.symmLabel a b lab h
  have hbV : b ∈ g.vertices := nbrsOf_keys_sub hg hbk
  have h1 := addHalf_mem_old (w := value) haV (adjLookup_of_mem hg haV)
    (by rw [← edgeLabel_eq_nbrsOf]; exact h)
  have h2 := addHalf_mem_old (w := value) hbV (adjLookup_of_mem hg hbV)
    (by rw [← edgeLabel_eq_nbrsOf]; exact hsym)
  simp only [Add_und_edge, if_neg hab, h1]
  exact h2

/-- On an invariant-satisfying graph, `Add_und_edge` always succeeds and
preserves the invariant. -/
theorem add_preserves (g : Graph) (a b : Nat) (value : Int) (hg : Inv g) :
    ∃ g', Add_und_edge g a b value = .ok g' ∧ Inv g' := by
  by_cases hab : a = b
  · exact ⟨g, by simp [Add_und_edge, hab], hg⟩
  · rcases hE : edgeLabel g a b with _ | lab
    · obtain ⟨g', heq, hv, hka, hkd, hla, hlb, hda, hdb, hfa, hfd⟩ :=
        add_edge_effect g a b value hg hab hE
      exact ⟨g', heq, inv_of_add g g' a b value hg hab hE hv hka hkd hla hlb hda hdb hfa hfd⟩
    · exact ⟨g, add_noop g a b lab value hg hE, hg⟩

theorem inv_empty : Inv emptyGraph := by
  constructor <;> simp [emptyGraph, edgeLabel_eq_nbrsOf, nbrsOf]

theorem applyEdgesFrom_inv :
    ∀ (ops : List (Nat × Nat × Int)) (g g' : Graph), Inv g →
      applyEdgesFrom g ops = .ok g' → Inv g' := by
  intro ops
  induction ops with
  | nil =>
    intro g g' hg h
    simp only [applyEdgesFrom] at h
    cases h
    exact hg
  | cons op rest ih =>
    intro g g' hg h
    obtain ⟨a, b, value⟩ := op
    obtain ⟨g1, heq, hg1⟩ := add_preserves g a b value hg
    rw [applyEdgesFrom, heq] at h
    exact ih g1 g' hg1 h

/-- Every graph produced by a sequence of `Add_und_edge` calls starting from
`graph.__init__` satisfies the structural invariant. -/
theorem applyEdges_inv (ops : List (Nat × Nat × Int)) (g : Graph)
    (h : applyEdges ops = .ok g) : Inv g :=
  applyEdgesFrom_inv ops emptyGraph g inv_empty h

/-! ### Degree-distribution support -/

theorem dict_snd_eq_map {β : Type} (f : Nat → β) :
    ∀ (d : Dict β), (dkeys d).Nodup →
      (∀ k ∈ dkeys d, dlookup d k = some (f k)) →
      d.map Prod.snd = (dkeys d).map f := by
  intro d
  induction d with
  | nil => simp
  | cons e rest ih =>
    obtain ⟨k, v⟩ := e
    intro hnd hf
    have hk := hf k (by simp)
    rw [dlookup_cons, if_pos rfl] at hk
    injection hk with hk
    have hnd' := List.nodup_cons.mp (by simpa using hnd)
    have hrest : ∀ k' ∈ dkeys rest, dlookup rest k' = some (f k') := by
      intro k' hk'
      have hne : k ≠ k' := fun hc => hnd'.1 (hc ▸ hk')
      have hlk := hf k' (by simp [hk'])
      rw [dlookup_cons, if_neg hne] at hlk
      exact hlk
    simp [hk, ih hnd'.2 hrest]

/-- On an invariant-satisfying graph, `list(self.degrees.values())` is the
per-vertex degree sequence, in vertex insertion order. -/
theorem degrees_values_eq {g : Graph} (hg : Inv g) :
    g.degrees.map Prod.snd = g.vertices.map (fun v => ((vertexDegree g v : Nat) : Int)) := by
  have hnd : (dkeys g.degrees).Nodup := hg.degKeys ▸ hg.vertNodup
  have hf : ∀ k ∈ dkeys g.degrees,
      dlookup g.degrees k = some ((vertexDegree g k : Nat) : Int) := by
    intro k hk
    exact degLookup_of_mem hg (hg.degKeys ▸ hk)
  rw [dict_snd_eq_map _ g.degrees hnd hf, hg.degKeys]

theorem count_map_cast (l : List Nat) (fv : Nat → Nat) (i : Nat) :
    (l.map (fun v => ((fv v : Nat) : Int))).count ((i : Nat) : Int) =
      l.countP (fun v => fv v = i) := by
  induction l with
  | nil => simp
  | cons x rest ih =>
    simp only [List.map_cons, List.count_cons, List.countP_cons, ih]
    by_cases h : fv x = i <;> simp [h]

theorem foldl_max_cast (l : List Nat) (fv : Nat → Nat) :
    ∀ m : Nat, (l.map (fun v => ((fv v : Nat) : Int))).foldl max ((m : Nat) : Int) =
      ((l.foldl (fun acc v => max acc (fv v)) m : Nat) : Int) := by
  induction l with
  | nil => intro m; simp
  | cons x rest ih =>
    intro m
    simp only [List.map_cons, List.foldl_cons]
    rw [← Nat.cast_max, ih]

/-! ### Python list indexing on in-range natural indices -/

theorem pyIdx_nat {len : Nat} {j : Nat} (h : j < len) : pyIdx len (j : Int) = some j := by
  rw [pyIdx, if_pos]
  · simp
  · exact ⟨Int.natCast_nonneg j, by exact_mod_cast h⟩

theorem pyGet_nat {α : Type} (l : List α) (j : Nat) (h : j < l.length) :
    pyGet l (j : Int) = l[j]? := by
  rw [pyGet, pyIdx_nat h]
  rfl

theorem pySet_nat {α : Type} (l : List α) (j : Nat) (a : α) (h : j < l.length) :
    pySet l (j : Int) a = some (l.set j a) := by
  rw [pySet, pyIdx_nat h, Option.map_some']

/-! ### Degree bounds on invariant-satisfying graphs -/

theorem degree_lt_card {g : Graph} (hg : Inv g) {v : Nat} (hv : v ∈ g.vertices) :
    vertexDegree g v < g.vertices.length := by
  have hnd := nbrsOf_keys_nodup hg v
  have hnotv := nbrsOf_not_self hg v
  have hlenk : (dkeys (nbrsOf g v)).length = vertexDegree g v := by
    simp [dkeys, vertexDegree]
  have h1 : (dkeys (nbrsOf g v)).toFinset ⊆ g.vertices.toFinset.erase v := by
    intro u hu
    rw [List.mem_toFinset] at hu
    exact Finset.mem_erase.mpr
      ⟨fun hc => hnotv (hc ▸ hu), List.mem_toFinset.mpr (nbrsOf_keys_sub hg hu)⟩
  have h2 := Finset.card_le_card h1
  rw [List.toFinset_card_of_nodup hnd] at h2
  have h3 : (g.vertices.toFinset.erase v).card < g.vertices.toFinset.card :=
    Finset.card_erase_lt_of_mem (List.mem_toFinset.mpr hv)
  have h4 : g.vertices.toFinset.card = g.vertices.length :=
    List.toFinset_card_of_nodup hg.vertNodup
  omega

theorem degree_pos {g : Graph} (hg : Inv g) {v : Nat} (hv : v ∈ g.vertices) :
    0 < vertexDegree g v := by
  have hne := hg.nbrNonempty v (nbrsOf g v) (adjLookup_of_mem hg hv)
  rcases hn : nbrsOf g v with _ | ⟨e, rest⟩
  · exact absurd hn hne
  · simp [vertexDegree, hn]

/-! ### The setup loop of `Degeneracy`: full characterization -/

/-- Running the lines 199–203 setup loop over a duplicate-free vertex list
whose degrees are stored in-range naturals, starting from buckets disjoint
from the vertices still to be processed: the loop succeeds, keeps the
bucket count, appends each vertex to the bucket of its stored degree (in
processing order), and drives `min_deg` down to a lower bound of every
processed degree. -/
theorem degInit_spec (degs : Dict Int) :
    ∀ (vs : List Nat) (degList : List (List Nat)) (minDeg : Int),
    vs.Nodup →
    (∀ v ∈ vs, ∃ dv : Nat, dlookup degs v = some ((dv : Nat) : Int) ∧ dv < degList.length) →
    (∀ (j : Nat) (b : List Nat), degList[j]? = some b → ∀ v ∈ vs, v ∉ b) →
    ∃ degList' minDeg',
      degInit degs vs degList minDeg = .ok (degList', minDeg') ∧
      degList'.length = degList.length ∧
      (∀ j : Nat, j < degList.length →
        degList'[j]? = (degList[j]?).map
          (fun b => b ++ vs.filter (fun v => dlookup degs v = some ((j : Nat) : Int)))) ∧
      minDeg' ≤ minDeg ∧
      (∀ v ∈ vs, ∀ dv : Int, dlookup degs v = some dv → minDeg' ≤ dv) ∧
      (0 ≤ minDeg → 0 ≤ minDeg') := by
  intro vs
  induction vs with
  | nil =>
    intro degList minDeg _ _ _
    refine ⟨degList, minDeg, rfl, rfl, ?_, le_refl _, ?_, fun h0 => h0⟩
    · intro j hj
      simp
    · intro v hv
      simp at hv
  | cons x rest ih =>
    intro degList minDeg hnd hdeg hdisj
    obtain ⟨dx, hdx, hdxlt⟩ := hdeg x (List.mem_cons_self x rest)
    obtain ⟨bucket, hbucket⟩ : ∃ b, degList[dx]? = some b :=
      ⟨degList[dx], List.getElem?_eq_getElem hdxlt⟩
    have hxnotb : x ∉ bucket := hdisj dx bucket hbucket x (List.mem_cons_self x rest)
    have hsadd : sadd bucket x = bucket ++ [x] := by rw [sadd, if_neg hxnotb]
    have hnd' := List.nodup_cons.mp hnd
    have hlen1 : (degList.set dx (bucket ++ [x])).length = degList.length :=
      List.length_set degList dx _
    obtain ⟨degList', minDeg', hEq, hLen, hBuck, hLe, hLb, hNn⟩ :=
      ih (degList.set dx (bucket ++ [x]))
        (if ((dx : Nat) : Int) < minDeg then ((dx : Nat) : Int) else minDeg)
        hnd'.2
        (by
          intro v hv
          obtain ⟨dv, h1, h2⟩ := hdeg v (List.mem_cons_of_mem _ hv)
          exact ⟨dv, h1, by rw [hlen1]; exact h2⟩)
        (by
          intro j b hjb v hv
          by_cases hj : dx = j
          · subst hj
            rw [List.getElem?_set_self hdxlt] at hjb
            injection hjb with hjb
            subst hjb
            intro hmem
            rcases List.mem_append.mp hmem with hm | hm
            · exact hdisj dx bucket hbucket v (List.mem_cons_of_mem _ hv) hm
            · rw [List.mem_singleton] at hm
              subst hm
              exact hnd'.1 hv
          · rw [List.getElem?_set_ne hj] at hjb
            exact hdisj j b hjb v (List.mem_cons_of_mem _ hv))
    refine ⟨degList', minDeg', ?_, hLen.trans hlen1, ?_, ?_, ?_, ?_⟩
    · simp only [degInit, hdx, pyGet_nat degList dx hdxlt, hbucket, hsadd,
        pySet_nat degList dx _ hdxlt]
      exact hEq
    · intro j hj
      have hj1 : j < (degList.set dx (bucket ++ [x])).length := by rw [hlen1]; exact hj
      have hB := hBuck j hj1
      by_cases hj' : j = dx
      · subst hj'
        rw [List.getElem?_set_self hdxlt] at hB
        rw [hB, hbucket]
        have hfx : (x :: rest).filter
            (fun v => dlookup degs v = some ((j : Nat) : Int)) =
            x :: rest.filter (fun v => dlookup degs v = some ((j : Nat) : Int)) := by
          rw [List.filter_cons, if_pos (by simp [hdx])]
        rw [hfx]
        simp [List.append_assoc]
      · rw [List.getElem?_set_ne (fun hc => hj' hc.symm)] at hB
        rw [hB]
        have hfx : (x :: rest).filter
            (fun v => dlookup degs v = some ((j : Nat) : Int)) =
            rest.filter (fun v => dlookup degs v = some ((j : Nat) : Int)) := by
          rw [List.filter_cons, if_neg]
          simp only [hdx, decide_eq_true_eq, Option.some_inj]
          exact fun hc => hj' (by exact_mod_cast hc.symm)
        rw [hfx]
    · refine le_trans hLe ?_
      split
      · omega
      · exact le_refl _
    · intro v hv dv hdv
      rcases List.mem_cons.mp hv with hvx | hvr
      · subst hvx
        rw [hdx] at hdv
        injection hdv with hdv
        subst hdv
        refine le_trans hLe ?_
        split
        · exact le_refl _
        · omega
      · exact hLb v hvr dv hdv
    · intro h0
      refine hNn ?_
      split
      · exact Int.natCast_nonneg dx
      · exact h0

/-! ### The `min_deg` advancing loop -/

/-- If some bucket at index `j` at or above the starting point is nonempty,
the lines 212–213 loop stops at a nonempty bucket (at the first such index)
without running out of its step bound. -/
theorem advanceMinAux_finds (degList : List (List Nat)) :
    ∀ (fuel : Nat) (m : Int) (j : Nat), 0 ≤ m → m ≤ (j : Int) → j < degList.length →
      (∀ b, degList[j]? = some b → b ≠ []) →
      (j : Int) - m < (fuel : Int) →
      ∃ (j' : Nat) (b' : List Nat),
        advanceMinAux degList m fuel = .ok ((j' : Nat) : Int) ∧
        j' < degList.length ∧ degList[j']? = some b' ∧ b' ≠ [] := by
  intro fuel
  induction fuel with
  | zero =>
    intro m j h0 hmj hj _ hfuel
    exfalso
    simp only [Nat.cast_zero] at hfuel
    omega
  | succ fuel ih =>
    intro m j h0 hmj hj hbne hfuel
    have hmn : m.toNat < degList.length := by omega
    have hmcast : ((m.toNat : Nat) : Int) = m := Int.toNat_of_nonneg h0
    obtain ⟨bm, hbm⟩ : ∃ b, degList[m.toNat]? = some b :=
      ⟨degList[m.toNat], List.getElem?_eq_getElem hmn⟩
    have hpg : pyGet degList m = some bm := by
      rw [← hmcast, pyGet_nat _ _ hmn]
      exact hbm
    simp only [advanceMinAux, hpg]
    by_cases hbe : bm.length = 0
    · rw [if_pos hbe]
      have hmj' : m.toNat ≠ j := by
        intro hc
        exact hbne bm (hc ▸ hbm) (List.length_eq_zero.mp hbe)
      refine ih (m + 1) j (by omega) (by omega) hj hbne ?_
      push_cast at hfuel
      omega
    · rw [if_neg hbe]
      exact ⟨m.toNat, bm, by rw [hmcast], hmn, hbm,
        fun hc => hbe (by rw [hc]; rfl)⟩

/-! ### The full run of `Degeneracy` on reachable graphs -/

/-- On any reachable graph, `Degeneracy` either returns the empty DAG (for
the empty graph) or raises `AttributeError` at line 232 on the very first
neighbour visit of the first eliminated vertex — after every dict lookup
and list index performed up to that point has succeeded. -/
theorem degeneracy_run (ops : List (Nat × Nat × Int)) (g : Graph)
    (h : applyEdges ops = .ok g) :
    (g.vertices = [] → (Degeneracy [g] 0).2 =
       .ok { adj_list := [], vertices := [], degrees := [], top_order := [] }) ∧
    (g.vertices ≠ [] → (Degeneracy [g] 0).2 = .error .attributeError) := by
  have hg := applyEdges_inv ops g h
  constructor
  · intro hv
    simp [Degeneracy, hv, degInit, degMain]
  · intro hnv
    have hnpos : 0 < g.vertices.length := List.length_pos.mpr hnv
    -- the setup loop
    have hdegs : ∀ v ∈ g.vertices, ∃ dv : Nat,
        dlookup g.degrees v = some ((dv : Nat) : Int) ∧
        dv < (List.replicate g.vertices.length ([] : List Nat)).length := by
      intro v hv
      refine ⟨vertexDegree g v, degLookup_of_mem hg hv, ?_⟩
      rw [List.length_replicate]
      exact degree_lt_card hg hv
    have hdisj : ∀ (j : Nat) (b : List Nat),
        (List.replicate g.vertices.length ([] : List Nat))[j]? = some b →
        ∀ v ∈ g.vertices, v ∉ b := by
      intro j b hjb v _
      rcases Nat.lt_or_ge j g.vertices.length with hj | hj
      · rw [List.getElem?_replicate_of_lt hj] at hjb
        injection hjb with hjb
        subst hjb
        simp
      · rw [List.getElem?_eq_none (by rw [List.length_replicate]; exact hj)] at hjb
        cases hjb
    obtain ⟨degList', minDeg', hInitEq, hLen, hBuck, _hLe, hLb, hNn⟩ :=
      degInit_spec g.degrees g.vertices (List.replicate g.vertices.length [])
        (g.vertices.length : Int) hg.vertNodup hdegs hdisj
    rw [List.length_replicate] at hLen
    have hmd0 : 0 ≤ minDeg' := hNn (Int.natCast_nonneg _)
    have hBuckets : ∀ j : Nat, j < g.vertices.length → degList'[j]? =
        some (g.vertices.filter
          (fun v => dlookup g.degrees v = some ((j : Nat) : Int))) := by
      intro j hj
      have hB := hBuck j (by rw [List.length_replicate]; exact hj)
      rw [List.getElem?_replicate_of_lt hj] at hB
      simpa using hB
    -- a vertex to aim advanceMin at
    obtain ⟨v0, hv0⟩ : ∃ v0, v0 ∈ g.vertices := List.exists_mem_of_ne_nil _ hnv
    have hd0 := degLookup_of_mem hg hv0
    have hd0lt : vertexDegree g v0 < g.vertices.length := degree_lt_card hg hv0
    have hB0ne : ∀ b, degList'[vertexDegree g v0]? = some b → b ≠ [] := by
      intro b hb
      rw [hBuckets _ hd0lt] at hb
      injection hb with hb
      subst hb
      intro hc
      have hv0f : v0 ∈ g.vertices.filter
          (fun v => dlookup g.degrees v = some ((vertexDegree g v0 : Nat) : Int)) :=
        List.mem_filter.mpr ⟨hv0, by simp [vertexDegree, hd0]⟩
      rw [hc] at hv0f
      simp at hv0f
    obtain ⟨j', b', hAdvEq, hj'lt, hb'eq, hb'ne⟩ :=
      advanceMinAux_finds degList' (2 * degList'.length + 2) minDeg'
        (vertexDegree g v0) hmd0 (hLb v0 hv0 _ hd0) (by rw [hLen]; exact hd0lt) hB0ne
        (by push_cast; omega)
    have hb'val : b' = g.vertices.filter
        (fun v => dlookup g.degrees v = some ((j' : Nat) : Int)) := by
      have hB := hBuckets j' (hLen ▸ hj'lt)
      rw [hB] at hb'eq
      injection hb'eq with hb'eq
      exact hb'eq.symm
    have hb'eq2 : degList'[j']? = some b' := by
      rw [hBuckets j' (hLen ▸ hj'lt), ← hb'val]
    rcases hsrc : b' with _ | ⟨source, srest⟩
    · exact absurd hsrc hb'ne
    subst hsrc
    have hsrcFilter : source ∈ g.vertices.filter
        (fun v => dlookup g.degrees v = some ((j' : Nat) : Int)) := by
      rw [← hb'val]
      exact List.mem_cons_self _ _
    have hsrcV : source ∈ g.vertices := (List.mem_filter.mp hsrcFilter).1
    have hsrcDeg : dlookup g.degrees source = some ((j' : Nat) : Int) := by
      have hs2 := (List.mem_filter.mp hsrcFilter).2
      simpa using hs2
    have hadjsrc := adjLookup_of_mem hg hsrcV
    have hnsne := hg.nbrNonempty source _ hadjsrc
    rcases hns : nbrsOf g source with _ | ⟨e0, nrest⟩
    · exact absurd hns hnsne
    obtain ⟨node, lab0⟩ := e0
    rw [hns] at hadjsrc
    have hnodekey : node ∈ dkeys (nbrsOf g source) := by
      rw [hns, dkeys_cons]
      exact List.mem_cons_self _ _
    have hnodeV : node ∈ g.vertices := nbrsOf_keys_sub hg hnodekey
    have hnodeDeg : dlookup g.degrees node = some ((vertexDegree g node : Nat) : Int) :=
      degLookup_of_mem hg hnodeV
    have hdnpos : 0 < vertexDegree g node := degree_pos hg hnodeV
    have hdnlt : vertexDegree g node < g.vertices.length := degree_lt_card hg hnodeV
    have hnodene : node ≠ source := fun hc => nbrsOf_not_self hg source (hc ▸ hnodekey)
    have hlenset : (degList'.set j' srest).length = g.vertices.length := by
      rw [List.length_set, hLen]
    obtain ⟨bucketN, hgetN, hnodeInB⟩ :
        ∃ bN, (degList'.set j' srest)[vertexDegree g node]? = some bN ∧ node ∈ bN := by
      by_cases hdj : j' = vertexDegree g node
      · refine ⟨srest, ?_, ?_⟩
        · rw [← hdj]
          exact List.getElem?_set_self hj'lt
        · have hnodeFilter : node ∈ g.vertices.filter
              (fun v => dlookup g.degrees v = some ((j' : Nat) : Int)) := by
            refine List.mem_filter.mpr ⟨hnodeV, ?_⟩
            rw [hdj]
            simp [vertexDegree, hnodeDeg]
          rw [← hb'val] at hnodeFilter
          rcases List.mem_cons.mp hnodeFilter with hc | hc
          · exact absurd hc hnodene
          · exact hc
      · refine ⟨g.vertices.filter
            (fun v => dlookup g.degrees v = some ((vertexDegree g node : Nat) : Int)),
            ?_, ?_⟩
        · rw [List.getElem?_set_ne hdj]
          exact hBuckets _ hdnlt
        · exact List.mem_filter.mpr ⟨hnodeV, by simp [vertexDegree, hnodeDeg]⟩
    -- assemble the evaluated pieces
    have hAdvMain : advanceMin degList' minDeg' = .ok ((j' : Nat) : Int) := by
      rw [advanceMin]
      exact hAdvEq
    have hpg1 : pyGet degList' ((j' : Nat) : Int) = some (source :: srest) := by
      rw [pyGet_nat _ _ hj'lt]
      exact hb'eq2
    have hps1 : pySet degList' ((j' : Nat) : Int) srest =
        some (degList'.set j' srest) := pySet_nat _ _ _ hj'lt
    have hpgB : pyGet (degList'.set j' srest) ((vertexDegree g node : Nat) : Int) =
        some bucketN := by
      rw [pyGet_nat _ _ (by rw [hlenset]; exact hdnlt)]
      exact hgetN
    have hlenset2 : ((degList'.set j' srest).set (vertexDegree g node)
        (bucketN.erase node)).length = g.vertices.length := by
      rw [List.length_set, hlenset]
    have hpsB : pySet (degList'.set j' srest) ((vertexDegree g node : Nat) : Int)
        (bucketN.erase node) =
        some ((degList'.set j' srest).set (vertexDegree g node) (bucketN.erase node)) :=
      pySet_nat _ _ _ (by rw [hlenset]; exact hdnlt)
    have hcast1 : ((vertexDegree g node : Nat) : Int) - 1 =
        (((vertexDegree g node - 1 : Nat)) : Int) := by omega
    obtain ⟨bucket1, hb1⟩ : ∃ b1, ((degList'.set j' srest).set (vertexDegree g node)
        (bucketN.erase node))[vertexDegree g node - 1]? = some b1 := by
      refine ⟨_, List.getElem?_eq_getElem ?_⟩
      rw [hlenset2]
      omega
    have hpg3 : pyGet ((degList'.set j' srest).set (vertexDegree g node)
        (bucketN.erase node)) (((vertexDegree g node : Nat) : Int) - 1) = some bucket1 := by
      rw [hcast1, pyGet_nat _ _ (by rw [hlenset2]; omega)]
      exact hb1
    have hps3 : pySet ((degList'.set j' srest).set (vertexDegree g node)
        (bucketN.erase node)) (((vertexDegree g node : Nat) : Int) - 1)
        (sadd bucket1 node) =
        some (((degList'.set j' srest).set (vertexDegree g node)
          (bucketN.erase node)).set (vertexDegree g node - 1) (sadd bucket1 node)) := by
      rw [hcast1, pySet_nat _ _ _ (by rw [hlenset2]; omega)]
    have hadjnode := adjLookup_of_mem hg hnodeV
    -- now evaluate the whole call
    obtain ⟨k, hk⟩ : ∃ k, g.vertices.length = k + 1 :=
      ⟨g.vertices.length - 1, by omega⟩
    simp only [Degeneracy, List.getElem?_cons_zero, hInitEq]
    rw [hk]
    simp only [degMain, hAdvMain, hpg1, hps1, hadjsrc, dkeys_cons]
    simp only [degInner, hnodeDeg, hpgB, if_pos hnodeInB, hpsB, hpg3, hps3, hadjnode]

/-- On any reachable graph, the dict lookups and list indexings performed
by `Degeneracy` never fail: the run never ends in `KeyError` or
`IndexError` (it is either the empty-graph success or the line-232
`AttributeError`). -/
theorem degeneracy_no_lookup_failure (ops : List (Nat × Nat × Int)) (g : Graph)
    (h : applyEdges ops = .ok g) :
    (Degeneracy [g] 0).2 ≠ .error .keyError ∧
    (Degeneracy [g] 0).2 ≠ .error .indexError := by
  obtain ⟨hemp, hne⟩ := degeneracy_run ops g h
  by_cases hv : g.vertices = []
  · rw [hemp hv]
    exact ⟨(fun hc => nomatch hc), (fun hc => nomatch hc)⟩
  · rw [hne hv]
    refine ⟨fun hc => ?_, fun hc => ?_⟩
    · injection hc with hc
      cases hc
    · injection hc with hc
      cases hc

/-! ### Claim theorems -/

/-- C1: the claim says `graph.Degeneracy` completes without error on every
valid undirected graph.  The empty-graph half is true: the run yields an
empty orientation and empty order.  But on the two-vertex graph with the
single edge (0, 1) — reachable by one `Add_und_edge` call — the computation
raises `AttributeError` at `G.adj_list[node].remove(source)` (line 232),
because `G.adj_list[node]` is a Python dict and dicts have no `remove`
method; no orientation or order is produced.  This contradicts the
function's own documentation (lines 177–183), so the code, not the claim,
is wrong. -/
theorem c1_degeneracy_raises_on_any_edge :
    Degeneracy [emptyGraph] 0 =
      ([emptyGraph, emptyGraph],
        .ok { adj_list := [], vertices := [], degrees := [], top_order := [] }) ∧
    applyEdges [(0, 1, 1)] = .ok g01 ∧
    (Degeneracy [g01] 0).2 = .error .attributeError := by
  refine ⟨by decide, by decide, by decide⟩

/-- C2: the claim says the topological order produced by `graph.Degeneracy`
is a permutation of the vertex set with all recorded edges pointing
forward.  On the path 0–1–2 (built by two `Add_und_edge` calls) the method
instead raises `AttributeError` at line 232 (`G.adj_list[node].remove` on a
dict) and produces no order and no DAG at all, so no permutation of
{0, 1, 2} is ever returned. -/
theorem c2_no_order_is_produced :
    applyEdges [(0, 1, 1), (1, 2, 1)] = .ok gPath ∧
    (Degeneracy [gPath] 0).2 = .error .attributeError ∧
    (∀ d : DAG, (Degeneracy [gPath] 0).2 ≠ .ok d) := by
  refine ⟨by decide, by decide, ?_⟩
  intro d hc
  have h2 : (Degeneracy [gPath] 0).2 = .error .attributeError := by decide
  rw [h2] at hc
  cases hc

/-- C3: the spec's own concrete scenario — a graph with the single edge
(x, y) = (3, 7) — requires that after `Degeneracy` exactly one of 3→7, 7→3
is present.  The call instead raises `AttributeError` at line 232, so
neither direction is ever recorded and no orientation exists. -/
theorem c3_single_edge_orientation_never_produced :
    applyEdges [(3, 7, 5)] = .ok g37 ∧
    (Degeneracy [g37] 0).2 = .error .attributeError := by
  refine ⟨by decide, by decide⟩

/-- C4: the claim says each `DAG` instance owns its own topological-order
sequence.  In the source, `DAG.__init__` executes `DAG.top_order = []`
(line 248), a *class*-attribute assignment: after `d1 = DAG();
d1.top_order.append(7); d2 = DAG()`, the order observed through `d1`
becomes `[]` (the fresh class attribute installed by `d2`'s construction),
although it was `[7]` before.  Class-level mutable state backs every
instance's result, contradicting the claim (and the spec flags exactly this
as a defect of the original), so this is a code bug. -/
theorem c4_top_order_is_class_level :
    readTopOrder dagW2 dagW1.2 = [7] ∧
    readTopOrder dagW3.1 dagW1.2 = [] := by
  refine ⟨by decide, by decide⟩

/-- C5: the claim says `Size` returns `wedges` as an exact integer computed
with integer arithmetic.  `m` is indeed an exact integer, but line 144
computes `deg*(deg-1)/2` with Python 3 *float* division (`/`, not `//`), so
the returned wedge count is a float — on the triangle {1,2,3} the result is
`[3, 6, 3.0]`, whose third component is a float, never equal (as a Python
object) to an `int`; for large enough degree sums binary64 would also round
the value itself.  The spec demands integer arithmetic, so the code (a
classic Python 2 → 3 division slip in this Jan-2015 module) is wrong. -/
theorem c5_wedges_computed_as_float :
    applyEdges [(1, 2, 1), (1, 3, 1), (2, 3, 1)] = .ok gTri ∧
    Size gTri = .ok (3, 6, PyNum.float 3) ∧
    (∀ k : Int, PyNum.float 3 ≠ PyNum.int k) := by
  refine ⟨by decide, ?_, ?_⟩
  · show Size gTri = _
    simp only [Size, gTri, sizeLoop, dlookup_cons, pyAdd, pyTrueDiv]
    norm_num
  · intro k hc
    cases hc

/-- C6: running `graph.Degeneracy` never changes the caller's original
graph (or any other live graph object): the method deep-copies `self` into
a fresh object (line 186) and works only on that copy, so every
pre-existing store entry reads the same after the call as before — whether
the run returns normally or propagates the line-232 `AttributeError`. -/
theorem c6_original_graph_untouched (s : List Graph) (r : Nat) (i : Nat)
    (h : i < s.length) : ((Degeneracy s r).1)[i]? = s[i]? := by
  rcases hr : s[r]? with _ | self
  · simp [Degeneracy, hr]
  · simp only [Degeneracy, hr]
    split
    · exact List.getElem?_append_left h
    · exact List.getElem?_append_left h

theorem c6_original_graph_untouched_witness :
    ((Degeneracy [g01] 0).1)[0]? = [g01][0]? :=
  c6_original_graph_untouched [g01] 0 0 (by decide)

/-- C7: after any sequence of `Add_und_edge` calls starting from the empty
graph, every vertex `v` has an adjacency entry and a stored degree, and the
stored degree equals the number of neighbours `len(adj_list[v])`. -/
theorem c7_degree_matches_adjacency (ops : List (Nat × Nat × Int)) (g : Graph)
    (h : applyEdges ops = .ok g) :
    ∀ v ∈ g.vertices, ∃ nbrs d, dlookup g.adj_list v = some nbrs ∧
      dlookup g.degrees v = some d ∧ d = (nbrs.length : Int) := by
  have hg := applyEdges_inv ops g h
  intro v hv
  exact ⟨nbrsOf g v, ((nbrsOf g v).length : Int), adjLookup_of_mem hg hv,
    degLookup_of_mem hg hv, rfl⟩

theorem c7_degree_matches_adjacency_witness :
    ∃ nbrs d, dlookup g01.adj_list 0 = some nbrs ∧
      dlookup g01.degrees 0 = some d ∧ d = (nbrs.length : Int) :=
  c7_degree_matches_adjacency [(0, 1, 1)] g01 (by decide) 0 (by decide)

/-- C8: re-inserting an already-present edge via `Add_und_edge`, with any
(possibly different) label, is a no-op — the whole graph, in particular the
originally stored label on both endpoints' adjacency entries and both
degrees, is unchanged (first-writer-wins); and `Add_und_edge(u, u, value)`
is always a no-op (line 65–66). -/
theorem c8_reinsert_and_selfloop_are_noops :
    (∀ ops g u v lab value, applyEdges ops = .ok g → edgeLabel g u v = some lab →
       Add_und_edge g u v value = .ok g) ∧
    (∀ (g : Graph) (u : Nat) (value : Int), Add_und_edge g u u value = .ok g) := by
  constructor
  · intro ops g u v lab value h hE
    exact add_noop g u v lab value (applyEdges_inv ops g h) hE
  · intro g u value
    simp [Add_und_edge]

theorem c8_reinsert_and_selfloop_are_noops_witness :
    Add_und_edge g01v5 0 1 9 = .ok g01v5 ∧ Add_und_edge g01 2 2 1 = .ok g01 :=
  ⟨c8_reinsert_and_selfloop_are_noops.1 [(0, 1, 5)] g01v5 0 1 5 9 (by decide) (by decide),
   c8_reinsert_and_selfloop_are_noops.2 g01 2 1⟩

/-- C9: on every (nonempty) constructed graph, `Deg_dist` succeeds and
returns a sequence whose length is `max_degree + 1` and whose entry `i`
counts the vertices of degree exactly `i`. -/
theorem c9_deg_dist_counts (ops : List (Nat × Nat × Int)) (g : Graph)
    (h : applyEdges ops = .ok g) (hne : g.vertices ≠ []) :
    ∃ dd, Deg_dist g = .ok dd ∧ dd.length = maxDegree g + 1 ∧
      ∀ i, i < dd.length →
        dd[i]? = some (g.vertices.countP (fun v => vertexDegree g v = i)) := by
  have hg := applyEdges_inv ops g h
  have hvals := degrees_values_eq hg
  have hneg : (g.degrees.map Prod.snd).any (fun d => d < 0) = false := by
    rw [hvals, List.any_eq_false]
    intro x hx
    simp only [List.mem_map] at hx
    obtain ⟨v, hv, rfl⟩ := hx
    simp
  have hlen : (g.degrees.map Prod.snd).foldl max 0 = ((maxDegree g : Nat) : Int) := by
    rw [hvals]
    have hfc := foldl_max_cast g.vertices (fun v => vertexDegree g v) 0
    simpa [maxDegree] using hfc
  have hdne : g.degrees.map Prod.snd ≠ [] := by
    rw [hvals]
    intro hc
    exact hne (List.map_eq_nil_iff.mp hc)
  refine ⟨(List.range (maxDegree g + 1)).map
      (fun i => (g.degrees.map Prod.snd).count ((i : Nat) : Int)), ?_, ?_, ?_⟩
  · simp only [Deg_dist, bincount]
    rw [if_neg (by simp [hneg])]
    rcases hd : g.degrees.map Prod.snd with _ | ⟨d0, drest⟩
    · exact absurd hd hdne
    · rw [hd] at hlen
      have hT : ((d0 :: drest).foldl max 0).toNat + 1 = maxDegree g + 1 := by
        rw [hlen, Int.toNat_natCast]
      exact congrArg (fun n => Except.ok ((List.range n).map
        (fun (i : Nat) => List.count ((i : Nat) : Int) (d0 :: drest)))) hT
  · rw [List.length_map, List.length_range]
  · intro i hi
    simp only [List.length_map, List.length_range] at hi
    rw [List.getElem?_map, List.getElem?_range hi]
    simp only [Option.map_some']
    rw [hvals, count_map_cast]

theorem c9_deg_dist_counts_witness :
    ∃ dd, Deg_dist gPath = .ok dd ∧ dd.length = maxDegree gPath + 1 ∧
      ∀ i, i < dd.length →
        dd[i]? = some (gPath.vertices.countP (fun v => vertexDegree gPath v = i)) :=
  c9_deg_dist_counts [(0, 1, 1), (1, 2, 1)] gPath (by decide) (by decide)

/-- C10: on every graph built by `Add_und_edge` calls from the empty graph,
`vertices`, the key set of `adj_list` and the key set of `degrees` coincide
(here: are equal as insertion-ordered lists); consequently the dict lookups
`adj_list[v]` / `degrees[v]` succeed for every vertex `v`, and `isEdge`,
`Size` and `Deg_dist` always return a value.  `Degeneracy`'s own dict
lookups are instances of the same two lookup forms on its deep copy of the
graph and therefore also never fail — the `AttributeError` it raises on
graphs with an edge (claims C1–C3) is a missing *method*, not a failed
key lookup, and the final conjunct states exactly that: the run never ends
in a `KeyError` or `IndexError`. -/
theorem c10_key_sets_agree_and_lookups_succeed (ops : List (Nat × Nat × Int))
    (g : Graph) (h : applyEdges ops = .ok g) :
    dkeys g.adj_list = g.vertices ∧
    dkeys g.degrees = g.vertices ∧
    (∀ v ∈ g.vertices, (dlookup g.adj_list v).isSome ∧ (dlookup g.degrees v).isSome) ∧
    (∀ u v, ∃ r, isEdge g u v = .ok r) ∧
    (∃ out, Size g = .ok out) ∧
    (∃ dd, Deg_dist g = .ok dd) ∧
    (Degeneracy [g] 0).2 ≠ .error .keyError ∧
    (Degeneracy [g] 0).2 ≠ .error .indexError := by
  have hg := applyEdges_inv ops g h
  refine ⟨hg.adjKeys, hg.degKeys, ?_, ?_, ?_, ?_, ?_⟩
  · intro v hv
    exact ⟨by rw [adjLookup_of_mem hg hv]; rfl, by rw [degLookup_of_mem hg hv]; rfl⟩
  · intro u v
    simp only [isEdge]
    by_cases hu : u ∈ g.vertices
    · rw [if_pos hu, adjLookup_of_mem hg hu]
      cases hb : dmem (nbrsOf g u) v
      · simp only [hb]
        by_cases hv : v ∈ g.vertices
        · rw [if_pos hv, adjLookup_of_mem hg hv]
          cases hb2 : dmem (nbrsOf g v) u
          · exact ⟨0, by simp [hb2]⟩
          · exact ⟨1, by simp [hb2]⟩
        · exact ⟨0, by rw [if_neg hv]⟩
      · exact ⟨1, by simp [hb]⟩
    · rw [if_neg hu]
      by_cases hv : v ∈ g.vertices
      · rw [if_pos hv, adjLookup_of_mem hg hv]
        cases hb2 : dmem (nbrsOf g v) u
        · exact ⟨0, by simp [hb2]⟩
        · exact ⟨1, by simp [hb2]⟩
      · exact ⟨0, by rw [if_neg hv]⟩
  · suffices hloop : ∀ (vs : List Nat) (m : Int) (w : PyNum), (∀ v ∈ vs, v ∈ g.vertices) →
        ∃ out, sizeLoop g.degrees vs m w = .ok out by
      obtain ⟨out, hout⟩ := hloop g.vertices 0 (.int 0) (fun v hv => hv)
      refine ⟨((g.vertices.length : Int), out.1, out.2), ?_⟩
      rw [Size, hout]
    intro vs
    induction vs with
    | nil => exact fun m w _ => ⟨(m, w), rfl⟩
    | cons x rest ih =>
      intro m w hsub
      rw [sizeLoop, degLookup_of_mem hg (hsub x (by simp))]
      exact ih _ _ (fun v hv => hsub v (by simp [hv]))
  · have hneg : (g.degrees.map Prod.snd).any (fun d => d < 0) = false := by
      rw [degrees_values_eq hg, List.any_eq_false]
      intro x hx
      simp only [List.mem_map] at hx
      obtain ⟨v, hv, rfl⟩ := hx
      simp
    simp only [Deg_dist, bincount]
    rw [if_neg (by simp [hneg])]
    exact ⟨_, rfl⟩
  · exact degeneracy_no_lookup_failure ops g h

theorem c10_key_sets_agree_and_lookups_succeed_witness :
    dkeys g01.adj_list = g01.vertices ∧ dkeys g01.degrees = g01.vertices :=
  ⟨(c10_key_sets_agree_and_lookups_succeed [(0, 1, 1)] g01 (by decide)).1,
   (c10_key_sets_agree_and_lookups_succeed [(0, 1, 1)] g01 (by decide)).2.1⟩

end GraphTools
